import Mathlib

/-!
Shallow embedding of the ingestion consistency engine of WeeklyChatbotV1
(src/rag/ingest_lib.py, with the CLI dedupe loop of
src/backend/ingest/ingest_faiss.py), together with proofs that settle the
frozen claims about it.

Modelling conventions:
* SQLite rows of the chunks table are a list of Row values; INSERT OR REPLACE
  deletes every row that conflicts on the primary key id or on the unique
  (non null) hash column and appends the new row.
* The FAISS flat index is a dimension together with the list of added
  vectors; a vector is represented by the provider name, the dimension of
  the returned embedding, and the embedded text (vector values are never
  inspected by the engine, only provenance and dimension matter).
* SHA1 is modelled by an injective total function on strings whose output
  is never empty; hash collisions are treated as identity, following the
  spec and the code, so only equality of hashes is ever used.
* The embedding provider (SentenceTransformer) carries a declared
  dimension (get_sentence_embedding_dimension) and the dimension of the
  vectors it actually returns; for a real provider the two coincide.
* File system paths, commits, and the store state at the moment an
  exception propagates are not modelled; every claim is about the state at
  a successful return.
-/

/-- A structured record (one parsed event). All fields optional strings,
as in the Python dicts. The end field is renamed endt because end is a
Lean keyword. -/
structure Ev where
  date : Option String := none
  dow : Option String := none
  start : Option String := none
  endt : Option String := none
  location : Option String := none
  participants : Option String := none
  title : Option String := none
  raw : Option String := none
  deriving DecidableEq

/-- Python truthiness of an optional string: None and the empty string are
falsy. -/
def truthy : Option String → Bool
  | none => false
  | some s => s ≠ ""

/-- One line of canonical text: included only when the field value is
truthy (ingest_lib.py lines 146-151). -/
def fieldLine (k : String) (v : Option String) : List String :=
  match v with
  | none => []
  | some s => if s = "" then [] else [k ++ (": ") ++ s]

/-- Canonical text derivation, ingest_lib.py _chunk_text_fields
(lines 143-152): joins the truthy fields in the fixed field order, the raw
line last. -/
def _chunk_text_fields (ev : Ev) : String :=
  String.intercalate ("\n")
    (fieldLine ("date") ev.date ++ fieldLine ("dow") ev.dow ++
     fieldLine ("start") ev.start ++ fieldLine ("end") ev.endt ++
     fieldLine ("location") ev.location ++
     fieldLine ("participants") ev.participants ++
     fieldLine ("title") ev.title ++ fieldLine ("raw") ev.raw)

/-- SHA1 digest (ingest_lib.py _sha1, line 139), modelled as an injective
function whose output is a nonempty string. -/
def _sha1 (s : String) : String := ("sha1:") ++ s

/-- ingest_lib.py _load_events_texts (lines 155-162): list of
(hash, text, event) triples. -/
def _load_events_texts (events : List Ev) : List (String × String × Ev) :=
  events.map (fun ev => (_sha1 (_chunk_text_fields ev), _chunk_text_fields ev, ev))

/-- One embedded vector: provider identity, dimension of the returned
vector, and the text it embeds. -/
structure Emb where
  prov : String
  edim : Nat
  text : String
  deriving DecidableEq

/-- The SentenceTransformer provider: model name, declared dimension
(get_sentence_embedding_dimension) and the dimension of the vectors
encode actually returns. For a real provider out_dim = decl_dim. -/
structure STModel where
  name : String
  decl_dim : Nat
  out_dim : Nat
  deriving DecidableEq

/-- model.encode: one vector per text, in order, each of the dimension the
provider actually produces. -/
def STModel.encode (m : STModel) (texts : List String) : List Emb :=
  texts.map (fun t => ⟨m.name, m.out_dim, t⟩)

/-- A FAISS flat inner product index: its dimension and the vectors added
so far, in order. ntotal is the length of vecs. -/
structure FaissIndex where
  d : Nat
  vecs : List Emb
  deriving DecidableEq

/-- faiss.IndexFlatIP(d): a fresh empty index of dimension d. -/
def IndexFlatIP (d : Nat) : FaissIndex := ⟨d, []⟩

/-- index.add(embs): appends the vectors; FAISS rejects vectors whose
dimension differs from the index dimension (the binding raises). -/
def FaissIndex.add (i : FaissIndex) (embs : List Emb) : Option FaissIndex :=
  if embs.all (fun e => e.edim = i.d) then some ⟨i.d, i.vecs ++ embs⟩ else none

/-- A row of the SQLite chunks table: ordinal id (INTEGER PRIMARY KEY),
content hash (unique when non empty; the empty string models NULL), the
canonical text, and the stored record fields. -/
structure Row where
  id : Nat
  hash : String
  text : String
  ev : Ev
  deriving DecidableEq

/-- INSERT OR REPLACE INTO chunks: every row conflicting on the id primary
key or on the unique non null hash is deleted, then the new row is
inserted. -/
def insertOrReplace (tbl : List Row) (r : Row) : List Row :=
  tbl.filter
    (fun x => decide (¬ (x.id = r.id ∨ (r.hash ≠ "" ∧ x.hash ≠ "" ∧ x.hash = r.hash))))
    ++ [r]

/-- SELECT hash FROM chunks with the Python filter `if h`: the set of non
null, non empty hashes of committed rows (ingest_lib.py line 219). -/
def existingHashes (tbl : List Row) : List String :=
  (tbl.map Row.hash).filter (fun h => decide (h ≠ ""))

/-- The meta key value table, restricted to the two keys the engine uses. -/
structure Meta where
  emb_model : Option String
  emb_dim : Option String
  deriving DecidableEq

/-- The persisted store: chunks table, meta table, and the FAISS index
file (none when index.faiss does not exist on disk). -/
structure Store where
  chunks : List Row
  meta : Meta
  faissFile : Option FaissIndex
  deriving DecidableEq

/-- total(VectorIndex) of a store: ntotal of the index file, 0 when the
file is missing. -/
def ntotalOfStore (st : Store) : Nat :=
  match st.faissFile with
  | some idx => idx.vecs.length
  | none => 0

/-- ingest_lib.py _backfill_hashes (lines 14-25): rows whose hash is NULL
or blank get hash = sha1 of their text. -/
def _backfill_hashes (tbl : List Row) : List Row :=
  tbl.map (fun r => if r.hash = "" then { r with hash := _sha1 r.text } else r)

/-- Insertion of a row into a list sorted by id (used to model SELECT
ORDER BY id ASC). -/
def insertById (r : Row) : List Row → List Row
  | [] => [r]
  | x :: xs => if r.id ≤ x.id then r :: x :: xs else x :: insertById r xs

/-- SELECT id, text FROM chunks ORDER BY id ASC: the rows sorted by id. -/
def sortById (rs : List Row) : List Row := rs.foldr insertById []

/-- Reassign ids 0..n-1 in list order (the manual resequencing loop of
ingest_lib.py lines 56-62). -/
def reseq (i : Nat) : List Row → List Row
  | [] => []
  | r :: rest => { r with id := i } :: reseq (i + 1) rest

/-- Result of _rebuild_faiss_from_sqlite: the possibly resequenced chunks
table and the freshly written index. -/
structure RebuildOut where
  chunksOut : List Row
  indexOut : FaissIndex
  deriving DecidableEq

/-- ingest_lib.py _rebuild_faiss_from_sqlite (lines 27-74): reads the rows
ordered by id; when empty, writes an empty index of the declared
dimension; otherwise resequences ids to 0..n-1 when they are not already
dense, re-embeds every text with the current model and writes an index of
the dimension the embeddings actually have. The returned ntotal is the
length of indexOut.vecs. -/
def _rebuild_faiss_from_sqlite (chunks : List Row) (m : STModel) : RebuildOut :=
  let rows := sortById chunks
  if rows.isEmpty then
    ⟨chunks, IndexFlatIP m.decl_dim⟩
  else
    let needReindex := decide (¬ rows.map Row.id = List.range rows.length)
    let chunks1 := if needReindex then (reseq 0 rows).foldl insertOrReplace [] else chunks
    let rows1 := sortById chunks1
    let embs := m.encode (rows1.map Row.text)
    ⟨chunks1, ⟨m.out_dim, embs⟩⟩

/-- Python comparison `prev and prev != cur` on an optional string meta
value. -/
def metaDiffers (prev : Option String) (cur : String) : Bool :=
  match prev with
  | none => false
  | some p => decide (p ≠ "") && decide (p ≠ cur)

/-- The summary dict returned by append_events; the warning field is true
when the soft post-write check found a count mismatch. -/
structure AppendSummary where
  added : Nat
  total_before : Nat
  total_after : Nat
  warning : Bool
  deriving DecidableEq

/-- The summary dict returned by rebuild_events. -/
structure RebuildSummary where
  added : Nat
  total_before : Nat
  total_after : Nat
  ok : Bool
  warning : Bool
  deriving DecidableEq

/-- In-memory state of append_events after the compatibility and drift
checks: current chunks table, the loaded index, the n_old counter, and
the index file on disk. -/
structure EngineState where
  chunksE : List Row
  indexE : FaissIndex
  nOld : Nat
  fileE : Option FaissIndex
  deriving DecidableEq

/-- ingest_lib.py append_events, lines 173-213: backfill, index load, the
emb_model and emb_dim compatibility checks (each triggering a rebuild
from SQLite), and the row count versus ntotal drift check (also
triggering a rebuild). -/
def append_stage1 (st : Store) (m : STModel) : EngineState :=
  let chunks0 := _backfill_hashes st.chunks
  let st0 : EngineState :=
    match st.faissFile with
    | some idx => ⟨chunks0, idx, idx.vecs.length, st.faissFile⟩
    | none => ⟨chunks0, IndexFlatIP m.decl_dim, 0, none⟩
  let st1 : EngineState :=
    if metaDiffers st.meta.emb_model m.name then
      let r := _rebuild_faiss_from_sqlite st0.chunksE m
      ⟨r.chunksOut, r.indexOut, r.indexOut.vecs.length, some r.indexOut⟩
    else st0
  let st2 : EngineState :=
    if metaDiffers st.meta.emb_dim (toString m.decl_dim) then
      let r := _rebuild_faiss_from_sqlite st1.chunksE m
      ⟨r.chunksOut, r.indexOut, r.indexOut.vecs.length, some r.indexOut⟩
    else st1
  if st2.chunksE.length ≠ st2.nOld then
    let r := _rebuild_faiss_from_sqlite st2.chunksE m
    ⟨r.chunksOut, r.indexOut, r.indexOut.vecs.length, some r.indexOut⟩
  else st2

/-- The rows the append loop builds (ingest_lib.py lines 248-256): ordinal
ids start at the pre-append row count and increase by one per surviving
record, in batch order. -/
def mkRows (start : Nat) : List (String × String × Ev) → List Row
  | [] => []
  | (h, txt, ev) :: rest => ⟨start, h, txt, ev⟩ :: mkRows (start + 1) rest

/-- ingest_lib.py append_events, lines 215-282: dedupe against the store
(note: no batch-internal dedupe), early return when nothing survives,
encode, the dimension mismatch rebuild-and-retry, index add and write,
row insertion with INSERT OR REPLACE, meta update and the soft post-write
count check. -/
def append_stage2 (m : STModel) (dedupe : Bool) (events : List Ev)
    (es : EngineState) : Except String (AppendSummary × Store) :=
  let rcb := es.chunksE.length
  let pending := _load_events_texts events
  let existing := existingHashes es.chunksE
  let new_records :=
    if dedupe then pending.filter (fun p => decide (¬ p.1 ∈ existing)) else pending
  if new_records.isEmpty then
    Except.ok (⟨0, rcb, rcb, false⟩,
      ⟨es.chunksE, ⟨some m.name, some (toString m.decl_dim)⟩, es.fileE⟩)
  else
    let embs := m.encode (new_records.map (fun p => p.2.1))
    let es2 :=
      if m.out_dim ≠ m.decl_dim then
        let r := _rebuild_faiss_from_sqlite es.chunksE m
        { es with chunksE := r.chunksOut, indexE := r.indexOut, fileE := some r.indexOut }
      else es
    match es2.indexE.add embs with
    | none => Except.error ("faiss add dimension mismatch")
    | some index5 =>
      let newRows := mkRows rcb new_records
      let chunks5 := newRows.foldl insertOrReplace es2.chunksE
      let rca := chunks5.length
      Except.ok (⟨new_records.length, rcb, rca, decide (rca ≠ index5.vecs.length)⟩,
        ⟨chunks5, ⟨some m.name, some (toString m.decl_dim)⟩, some index5⟩)

/-- ingest_lib.py append_events (lines 167-282). -/
def append_events (events : List Ev) (st : Store) (m : STModel)
    (dedupe : Bool := true) : Except String (AppendSummary × Store) :=
  append_stage2 m dedupe events (append_stage1 st m)

/-- The batch-internal dedupe loop shared by rebuild_events
(ingest_lib.py lines 328-336) and ingest_faiss.py: keep the first record
of each hash, skipping hashes already seen. -/
def dedupeAux (seen : List String) :
    List (String × String × Ev) → List (String × String × Ev)
  | [] => []
  | (h, t, e) :: rest =>
    if h ∈ seen then dedupeAux seen rest
    else (h, t, e) :: dedupeAux (h :: seen) rest

/-- ingest_lib.py rebuild_events (lines 286-389): clears the chunks table,
optionally collapses batch duplicates by hash, creates a fresh index of
the declared dimension, embeds everything in one batch, writes the index,
inserts the rows with ids 0..n-1 via INSERT OR REPLACE, updates meta,
and returns a summary whose ok flag is the soft count check. -/
def rebuild_events (events : List Ev) (st : Store) (m : STModel)
    (dedupe : Bool := true) : Except String (RebuildSummary × Store) :=
  let _ := st.chunks
  let pending := _load_events_texts events
  let records := if dedupe then dedupeAux [] pending else pending
  let index0 := IndexFlatIP m.decl_dim
  let texts := records.map (fun p => p.2.1)
  let added :=
    if texts.isEmpty then some index0 else index0.add (m.encode texts)
  match added with
  | none => Except.error ("faiss add dimension mismatch")
  | some index =>
    let chunks := (mkRows 0 records).foldl insertOrReplace ([] : List Row)
    let rows_cnt := chunks.length
    let ok := decide (rows_cnt = index.vecs.length)
    Except.ok (⟨records.length, 0, rows_cnt, ok, !ok⟩,
      ⟨chunks, ⟨some m.name, some (toString m.decl_dim)⟩, some index⟩)

/-- The dedupe loop of ingest_faiss.py (lines 106-129): dedupe against the
committed hashes unless no_dedupe, and always collapse duplicates inside
the batch through the batch_seen set. Returns the surviving
(hash, text, event) triples. -/
def ingestLoop (existing : List String) (no_dedupe : Bool)
    (batch_seen : List String) : List Ev → List (String × String × Ev)
  | [] => []
  | ev :: rest =>
    let txt := _chunk_text_fields ev
    let h := _sha1 txt
    if no_dedupe then
      if h ∈ batch_seen then ingestLoop existing no_dedupe batch_seen rest
      else (h, txt, ev) :: ingestLoop existing no_dedupe (h :: batch_seen) rest
    else
      if h ∈ existing ∨ h ∈ batch_seen then ingestLoop existing no_dedupe batch_seen rest
      else (h, txt, ev) :: ingestLoop existing no_dedupe (h :: batch_seen) rest

/-- The new_records list computed by the ingest_faiss.py main block. -/
def ingest_new_records (events : List Ev) (existing : List String)
    (no_dedupe : Bool) : List (String × String × Ev) :=
  ingestLoop existing no_dedupe [] events

/-! ### Spec side definitions -/

/-- The canonical hash of a record. -/
def hashOf (ev : Ev) : String := _sha1 (_chunk_text_fields ev)

/-- Number of distinct canonical text hashes in a batch (spec, rebuild
determinism). -/
def distinctHashCount (events : List Ev) : Nat :=
  ((events.map hashOf).toFinset).card

/-- The bijection invariant restricted to cardinality: the chunks row
count equals ntotal of the index file. -/
def Consistent (st : Store) : Prop := st.chunks.length = ntotalOfStore st

/-- Well formed chunks table: ids dense 0..n-1 in order, hashes pairwise
distinct and non null. Every table produced by a successful run of the
engine from an empty store satisfies this. -/
def WfChunks (rs : List Row) : Prop :=
  rs.map Row.id = List.range rs.length ∧
  (rs.map Row.hash).Nodup ∧
  ∀ r ∈ rs, r.hash ≠ ""

/-- The store meta matches the current provider identity and declared
dimension. -/
def MetaMatches (st : Store) (m : STModel) : Prop :=
  st.meta.emb_model = some m.name ∧ st.meta.emb_dim = some (toString m.decl_dim)

/-- The provider actually returns vectors of its declared dimension. -/
def Honest (m : STModel) : Prop := m.out_dim = m.decl_dim

/-- Field wise normalization identifying a missing field with an empty
one. -/
def normOpt : Option String → Option String
  | none => none
  | some s => if s = "" then none else some s

/-- A record with every field normalized. -/
def normEv (ev : Ev) : Ev :=
  ⟨normOpt ev.date, normOpt ev.dow, normOpt ev.start, normOpt ev.endt,
   normOpt ev.location, normOpt ev.participants, normOpt ev.title, normOpt ev.raw⟩

/-! Concrete inputs used by evaluation theorems and witnesses. -/

/-- A record with only a title, as in the spec scenario. -/
def evA : Ev := { title := some ("Meeting A") }

/-- A second record with only a title. -/
def evB : Ev := { title := some ("Meeting B") }

/-- A third record with only a title. -/
def evC : Ev := { title := some ("Meeting C") }

/-- An entirely fresh store (no tables, no index file). -/
def emptyStore : Store := ⟨[], ⟨none, none⟩, none⟩

/-- An honest provider of dimension 4. -/
def m4 : STModel := ⟨("MiniLM"), 4, 4⟩

/-- The meta table as written back by both operations. -/
def metaOf (m : STModel) : Meta := ⟨some m.name, some (toString m.decl_dim)⟩

/-- The index _rebuild_faiss_from_sqlite writes for an already dense table
and a provider returning its declared dimension. -/
def rebuiltIndex (chunks : List Row) (m : STModel) : FaissIndex :=
  ⟨m.decl_dim, m.encode (chunks.map Row.text)⟩

/-- The stored row of evA used by concrete stores below. -/
def row0 : Row := ⟨0, hashOf evA, _chunk_text_fields evA, evA⟩

/-- A store whose chunks table has one row but whose index file is empty:
simulates a crash between the two halves of a write. -/
def driftedStore : Store :=
  ⟨[row0], ⟨some ("MiniLM"), some ("4")⟩, some ⟨4, []⟩⟩

/-- A consistent one row store matching m4. -/
def oneStore : Store :=
  ⟨[row0], ⟨some ("MiniLM"), some ("4")⟩,
   some ⟨4, [⟨("MiniLM"), 4, _chunk_text_fields evA⟩]⟩⟩

/-- A provider whose encode returns dimension 3 while it declares 4. -/
def mBad : STModel := ⟨("MiniLM"), 4, 3⟩

/-- An empty but initialized store matching m4. -/
def wStore : Store := ⟨[], ⟨some ("MiniLM"), some ("4")⟩, some ⟨4, []⟩⟩

/-- A consistent one row store recorded under a different provider
identity. -/
def mmStore : Store :=
  ⟨[row0], ⟨some ("old-model"), some ("4")⟩,
   some ⟨4, [⟨("old-model"), 4, _chunk_text_fields evA⟩]⟩⟩

/-- evA with the location field set to the empty string instead of
missing. -/
def evAempty : Ev := { title := some ("Meeting A"), location := some ("") }

/-- The records of a batch surviving dedupe against a chunks table (the
new_records list of append_events when dedupe is true). -/
def newRecords (events : List Ev) (chunks : List Row) : List (String × String × Ev) :=
  (_load_events_texts events).filter (fun p => decide (¬ p.1 ∈ existingHashes chunks))

/-! ### Basic lemmas about the embedded primitives -/

theorem sha1_ne_empty (s : String) : _sha1 s ≠ ("") := by
  intro h
  have h2 : (_sha1 s).data = ("" : String).data := by rw [h]
  simp [_sha1, String.data_append] at h2

theorem load_map_fst (events : List Ev) :
    (_load_events_texts events).map (fun p => p.1) = events.map hashOf := by
  simp [_load_events_texts, hashOf, List.map_map, Function.comp]

theorem load_hash_ne {events : List Ev} {p : String × String × Ev}
    (hp : p ∈ _load_events_texts events) : p.1 ≠ ("") := by
  simp only [_load_events_texts, List.mem_map] at hp
  obtain ⟨ev, _, rfl⟩ := hp
  exact sha1_ne_empty _

theorem encode_length (m : STModel) (ts : List String) :
    (m.encode ts).length = ts.length := by
  simp [STModel.encode]

theorem encode_prov {m : STModel} {e : Emb} {ts : List String}
    (he : e ∈ m.encode ts) : e.prov = m.name := by
  simp only [STModel.encode, List.mem_map] at he
  obtain ⟨t, _, rfl⟩ := he
  rfl

theorem encode_edim {m : STModel} {e : Emb} {ts : List String}
    (he : e ∈ m.encode ts) : e.edim = m.out_dim := by
  simp only [STModel.encode, List.mem_map] at he
  obtain ⟨t, _, rfl⟩ := he
  rfl

theorem add_encode (i : FaissIndex) (m : STModel) (ts : List String)
    (h : m.out_dim = i.d) : i.add (m.encode ts) = some ⟨i.d, i.vecs ++ m.encode ts⟩ := by
  unfold FaissIndex.add
  rw [if_pos]
  simp only [STModel.encode, List.all_eq_true]
  intro e he
  simp only [List.mem_map] at he
  obtain ⟨t, _, rfl⟩ := he
  simpa using h

theorem backfill_eq_self : ∀ {rs : List Row}, (∀ r ∈ rs, r.hash ≠ ("")) →
    _backfill_hashes rs = rs := by
  intro rs
  induction rs with
  | nil => intro _; rfl
  | cons a l ih =>
    intro h
    have ha : a.hash ≠ ("") := h a (by simp)
    have hl := ih (fun r hr => h r (by simp [hr]))
    simp only [_backfill_hashes, List.map_cons] at hl ⊢
    rw [if_neg ha, hl]

theorem pairwise_id_of_dense {rs : List Row}
    (h : rs.map Row.id = List.range rs.length) :
    rs.Pairwise (fun a b => a.id < b.id) := by
  have hp := List.pairwise_lt_range rs.length
  rw [← h] at hp
  exact List.pairwise_map.mp hp

theorem insertById_cons {r x : Row} {xs : List Row} (h : r.id ≤ x.id) :
    insertById r (x :: xs) = r :: x :: xs := by
  simp [insertById, h]

theorem sortById_eq_self : ∀ {rs : List Row},
    rs.Pairwise (fun a b => a.id < b.id) → sortById rs = rs := by
  intro rs
  induction rs with
  | nil => intro _; rfl
  | cons a l ih =>
    intro h
    have hl := ih (List.Pairwise.of_cons h)
    simp only [sortById, List.foldr_cons] at hl ⊢
    rw [hl]
    cases l with
    | nil => rfl
    | cons b l2 =>
      exact insertById_cons (le_of_lt ((List.pairwise_cons.mp h).1 b (by simp)))

theorem id_lt_of_dense {rs : List Row} (h : rs.map Row.id = List.range rs.length)
    {x : Row} (hx : x ∈ rs) : x.id < rs.length := by
  have : x.id ∈ rs.map Row.id := List.mem_map_of_mem Row.id hx
  rw [h] at this
  exact List.mem_range.mp this

theorem rebuild_of_dense_ne {rs : List Row} {m : STModel}
    (hd : rs.map Row.id = List.range rs.length) (hne : rs ≠ []) :
    _rebuild_faiss_from_sqlite rs m = ⟨rs, ⟨m.out_dim, m.encode (rs.map Row.text)⟩⟩ := by
  have hs : sortById rs = rs := sortById_eq_self (pairwise_id_of_dense hd)
  unfold _rebuild_faiss_from_sqlite
  rw [hs]
  rw [if_neg (by simpa [List.isEmpty_iff] using hne)]
  simp only [hd, decide_not]
  simp [hs]

theorem rebuild_of_dense_honest {rs : List Row} {m : STModel}
    (hd : rs.map Row.id = List.range rs.length) (hh : Honest m) :
    _rebuild_faiss_from_sqlite rs m = ⟨rs, rebuiltIndex rs m⟩ := by
  cases hrs : rs with
  | nil =>
    simp [_rebuild_faiss_from_sqlite, sortById, rebuiltIndex, IndexFlatIP,
      STModel.encode]
  | cons a l =>
    rw [← hrs, rebuild_of_dense_ne hd (by rw [hrs]; exact List.cons_ne_nil a l)]
    unfold rebuiltIndex
    rw [hh]

theorem metaDiffers_self (s : String) : metaDiffers (some s) s = false := by
  simp [metaDiffers]

theorem mkRows_length : ∀ (l : List (String × String × Ev)) (s : Nat),
    (mkRows s l).length = l.length := by
  intro l
  induction l with
  | nil => intro s; rfl
  | cons a rest ih =>
    intro s
    obtain ⟨h, t, e⟩ := a
    simp [mkRows, ih]

theorem mkRows_map_hash : ∀ (l : List (String × String × Ev)) (s : Nat),
    (mkRows s l).map Row.hash = l.map (fun p => p.1) := by
  intro l
  induction l with
  | nil => intro s; rfl
  | cons a rest ih =>
    intro s
    obtain ⟨h, t, e⟩ := a
    simp [mkRows, ih]

theorem mkRows_map_text : ∀ (l : List (String × String × Ev)) (s : Nat),
    (mkRows s l).map Row.text = l.map (fun p => p.2.1) := by
  intro l
  induction l with
  | nil => intro s; rfl
  | cons a rest ih =>
    intro s
    obtain ⟨h, t, e⟩ := a
    simp [mkRows, ih]

theorem mkRows_id_ge : ∀ {l : List (String × String × Ev)} {s : Nat} {r : Row},
    r ∈ mkRows s l → s ≤ r.id := by
  intro l
  induction l with
  | nil => intro s r hr; cases hr
  | cons a rest ih =>
    intro s r hr
    obtain ⟨h, t, e⟩ := a
    simp only [mkRows, List.mem_cons] at hr
    cases hr with
    | inl h1 => rw [h1]
    | inr h2 => exact Nat.le_of_succ_le (ih h2)

theorem mkRows_id_nodup : ∀ (l : List (String × String × Ev)) (s : Nat),
    ((mkRows s l).map Row.id).Nodup := by
  intro l
  induction l with
  | nil => intro s; simp [mkRows]
  | cons a rest ih =>
    intro s
    obtain ⟨h, t, e⟩ := a
    simp only [mkRows, List.map_cons, List.nodup_cons]
    refine ⟨?_, ih (s + 1)⟩
    intro hmem
    simp only [List.mem_map] at hmem
    obtain ⟨r, hr, hid⟩ := hmem
    have := mkRows_id_ge hr
    omega

theorem range_append_mkRows : ∀ (l : List (String × String × Ev)) (n : Nat),
    List.range n ++ (mkRows n l).map Row.id = List.range (n + l.length) := by
  intro l
  induction l with
  | nil => intro n; simp [mkRows]
  | cons a rest ih =>
    intro n
    obtain ⟨h, t, e⟩ := a
    simp only [mkRows, List.map_cons, List.length_cons]
    have : List.range n ++ n :: (mkRows (n + 1) rest).map Row.id
        = (List.range n ++ [n]) ++ (mkRows (n + 1) rest).map Row.id := by
      simp
    rw [this, ← List.range_succ, ih (n + 1)]
    congr 1
    omega

/-! ### INSERT OR REPLACE lemmas -/

theorem insertOrReplace_no_conflict {T : List Row} {r : Row}
    (h : ∀ x ∈ T, x.id ≠ r.id ∧ x.hash ≠ r.hash) :
    insertOrReplace T r = T ++ [r] := by
  unfold insertOrReplace
  congr 1
  refine List.filter_eq_self.mpr (fun x hx => ?_)
  simp only [decide_eq_true_eq]
  rintro (h1 | ⟨_, _, h3⟩)
  · exact (h x hx).1 h1
  · exact (h x hx).2 h3

theorem foldl_ins_no_conflict : ∀ (l : List Row) (T : List Row),
    (∀ s ∈ l, ∀ x ∈ T, x.id ≠ s.id ∧ x.hash ≠ s.hash) →
    (l.map Row.id).Nodup → (l.map Row.hash).Nodup →
    l.foldl insertOrReplace T = T ++ l := by
  intro l
  induction l with
  | nil => intro T _ _ _; simp
  | cons r rest ih =>
    intro T hconf hid hhash
    simp only [List.map_cons, List.nodup_cons] at hid hhash
    have h1 : insertOrReplace T r = T ++ [r] :=
      insertOrReplace_no_conflict (fun x hx => hconf r (by simp) x hx)
    have h2 : ∀ s ∈ rest, ∀ x ∈ T ++ [r], x.id ≠ s.id ∧ x.hash ≠ s.hash := by
      intro s hs x hx
      rcases List.mem_append.mp hx with hxT | hxr
      · exact hconf s (by simp [hs]) x hxT
      · have hxr2 : x = r := by simpa using hxr
        subst hxr2
        constructor
        · intro he
          exact hid.1 (by rw [he]; exact List.mem_map_of_mem Row.id hs)
        · intro he
          exact hhash.1 (by rw [he]; exact List.mem_map_of_mem Row.hash hs)
    calc (r :: rest).foldl insertOrReplace T
        = rest.foldl insertOrReplace (insertOrReplace T r) := by rfl
      _ = rest.foldl insertOrReplace (T ++ [r]) := by rw [h1]
      _ = (T ++ [r]) ++ rest := ih (T ++ [r]) h2 hid.2 hhash.2
      _ = T ++ (r :: rest) := by simp

/-- One INSERT OR REPLACE step when the new row has a fresh id but a
possibly colliding hash: the rows surviving are exactly those with a
different hash. -/
theorem insertOrReplace_fresh_id {T : List Row} {r : Row}
    (hid : ∀ x ∈ T, x.id ≠ r.id) (hr : r.hash ≠ ("")) :
    insertOrReplace T r = T.filter (fun x => decide (x.hash ≠ r.hash)) ++ [r] := by
  unfold insertOrReplace
  congr 1
  refine List.filter_congr (fun x hx => ?_)
  have hxid := hid x hx
  by_cases hxh : x.hash = r.hash
  · simp only [decide_eq_decide]
    constructor
    · intro hcon
      exfalso
      apply hcon
      right
      refine ⟨hr, ?_, hxh⟩
      rw [hxh]; exact hr
    · intro hne
      exact absurd hxh hne
  · simp only [decide_eq_decide]
    constructor
    · intro _; exact hxh
    · intro _
      rintro (h1 | ⟨_, _, h3⟩)
      · exact hxid h1
      · exact hxh h3

theorem map_hash_filter (T : List Row) (h : String) :
    (T.filter (fun x => decide (x.hash ≠ h))).map Row.hash
      = (T.map Row.hash).filter (fun a => decide (a ≠ h)) := by
  induction T with
  | nil => rfl
  | cons a l ih =>
    simp only [decide_not] at ih ⊢
    by_cases ha : a.hash = h
    · simp [List.filter_cons, ha, ih]
    · simp [List.filter_cons, ha, ih]

/-- One insertion with a fresh id: effect on hashes of the table. -/
theorem ins_step {T : List Row} {r : Row} (hrh : r.hash ≠ (""))
    (hid : ∀ x ∈ T, x.id ≠ r.id) (hnodup : (T.map Row.hash).Nodup)
    (hne : ∀ x ∈ T, x.hash ≠ ("")) :
    ((insertOrReplace T r).map Row.hash).Nodup ∧
    (∀ x ∈ insertOrReplace T r, x.hash ≠ ("")) ∧
    (∀ x ∈ insertOrReplace T r, x = r ∨ x ∈ T) ∧
    ((insertOrReplace T r).map Row.hash).toFinset
      = insert r.hash ((T.map Row.hash).toFinset) := by
  rw [insertOrReplace_fresh_id hid hrh]
  have hmap : ((T.filter (fun x => decide (x.hash ≠ r.hash))) ++ [r]).map Row.hash
      = ((T.map Row.hash).filter (fun a => decide (a ≠ r.hash))) ++ [r.hash] := by
    rw [List.map_append, map_hash_filter]
    rfl
  have hnotmem : r.hash ∉ (T.map Row.hash).filter (fun a => decide (a ≠ r.hash)) := by
    intro hm
    have := (List.mem_filter.mp hm).2
    simp at this
  refine ⟨?_, ?_, ?_, ?_⟩
  · rw [hmap]
    have h1 : ((T.map Row.hash).filter (fun a => decide (a ≠ r.hash))).Nodup :=
      List.Nodup.sublist (List.filter_sublist _) hnodup
    simp only [decide_not] at h1 hnotmem
    simp [List.nodup_append, h1, hnotmem]
  · intro x hx
    rcases List.mem_append.mp hx with hxf | hxr
    · exact hne x ((List.filter_sublist T).subset hxf)
    · have : x = r := by simpa using hxr
      rw [this]; exact hrh
  · intro x hx
    rcases List.mem_append.mp hx with hxf | hxr
    · exact Or.inr ((List.filter_sublist T).subset hxf)
    · exact Or.inl (by simpa using hxr)
  · rw [hmap, List.toFinset_append]
    ext a
    simp only [Finset.mem_union, List.mem_toFinset, List.mem_filter,
      List.toFinset_cons, List.toFinset_nil, insert_emptyc_eq, Finset.mem_insert,
      Finset.mem_singleton, decide_eq_true_eq]
    constructor
    · rintro (⟨ha, _⟩ | ha)
      · exact Or.inr ha
      · exact Or.inl (by simpa using ha)
    · rintro (ha | ha)
      · right; simpa using ha
      · by_cases hr2 : a = r.hash
        · right; simpa using hr2
        · exact Or.inl ⟨ha, hr2⟩

/-- Folding INSERT OR REPLACE over rows with fresh increasing ids: the
table keeps unique non null hashes and its hash set is the union. -/
theorem foldl_ins_count : ∀ (l : List (String × String × Ev)) (T : List Row) (s : Nat),
    (∀ p ∈ l, p.1 ≠ ("")) →
    (T.map Row.hash).Nodup → (∀ x ∈ T, x.hash ≠ ("")) → (∀ x ∈ T, x.id < s) →
    (((mkRows s l).foldl insertOrReplace T).map Row.hash).Nodup ∧
    (∀ x ∈ (mkRows s l).foldl insertOrReplace T, x.hash ≠ ("")) ∧
    (∀ x ∈ (mkRows s l).foldl insertOrReplace T, x.id < s + l.length) ∧
    (((mkRows s l).foldl insertOrReplace T).map Row.hash).toFinset
      = (T.map Row.hash).toFinset ∪ (l.map (fun p => p.1)).toFinset := by
  intro l
  induction l with
  | nil =>
    intro T s _ hnodup hne hlt
    refine ⟨hnodup, hne, ?_, by simp [mkRows]⟩
    intro x hx
    exact Nat.lt_of_lt_of_le (hlt x hx) (by omega)
  | cons a rest ih =>
    intro T s hl hnodup hne hlt
    obtain ⟨h, t, e⟩ := a
    have hh : h ≠ ("") := hl (h, t, e) (by simp)
    have hstep := ins_step (T := T) (r := ⟨s, h, t, e⟩) hh
      (fun x hx => Nat.ne_of_lt (hlt x hx)) hnodup hne
    have hlt2 : ∀ x ∈ insertOrReplace T ⟨s, h, t, e⟩, x.id < s + 1 := by
      intro x hx
      rcases hstep.2.2.1 x hx with hxr | hxT
      · subst hxr; exact Nat.lt_succ_self s
      · exact Nat.lt_succ_of_lt (hlt x hxT)
    have hrest := ih (insertOrReplace T ⟨s, h, t, e⟩) (s + 1)
      (fun p hp => hl p (by simp [hp])) hstep.1 hstep.2.1 hlt2
    have hfold : (mkRows s ((h, t, e) :: rest)).foldl insertOrReplace T
        = (mkRows (s + 1) rest).foldl insertOrReplace (insertOrReplace T ⟨s, h, t, e⟩) := by
      rfl
    rw [hfold]
    refine ⟨hrest.1, hrest.2.1, ?_, ?_⟩
    · intro x hx
      have hb := hrest.2.2.1 x hx
      simp only [List.length_cons]
      omega
    · rw [hrest.2.2.2, hstep.2.2.2]
      simp only [List.map_cons, List.toFinset_cons]
      rw [Finset.insert_union, Finset.union_insert]

/-! ### Batch internal dedupe lemmas -/

theorem dedupeAux_sub : ∀ {l : List (String × String × Ev)} {seen : List String}
    {p : String × String × Ev}, p ∈ dedupeAux seen l → p ∈ l := by
  intro l
  induction l with
  | nil => intro seen p hp; cases hp
  | cons a rest ih =>
    intro seen p hp
    obtain ⟨h, t, e⟩ := a
    simp only [dedupeAux] at hp
    by_cases hs : h ∈ seen
    · rw [if_pos hs] at hp
      exact List.mem_cons_of_mem _ (ih hp)
    · rw [if_neg hs] at hp
      rcases List.mem_cons.mp hp with h1 | h2
      · exact h1 ▸ List.mem_cons_self _ _
      · exact List.mem_cons_of_mem _ (ih h2)

theorem dedupeAux_nodup : ∀ (l : List (String × String × Ev)) (seen : List String),
    ((dedupeAux seen l).map (fun p => p.1)).Nodup ∧
    (∀ h ∈ (dedupeAux seen l).map (fun p => p.1), h ∉ seen) := by
  intro l
  induction l with
  | nil => intro seen; constructor <;> simp [dedupeAux]
  | cons a rest ih =>
    intro seen
    obtain ⟨h, t, e⟩ := a
    by_cases hs : h ∈ seen
    · simpa [dedupeAux, hs] using ih seen
    · have iha := ih (h :: seen)
      simp only [dedupeAux, if_neg hs, List.map_cons, List.nodup_cons]
      refine ⟨⟨?_, iha.1⟩, ?_⟩
      · intro hmem
        exact (iha.2 h hmem) (List.mem_cons_self h seen)
      · intro x hx
        rcases List.mem_cons.mp hx with h1 | h2
        · rw [h1]; exact hs
        · intro hxs
          exact (iha.2 x h2) (List.mem_cons_of_mem h hxs)

theorem dedupeAux_toFinset : ∀ (l : List (String × String × Ev)) (seen : List String),
    ((dedupeAux seen l).map (fun p => p.1)).toFinset
      = (l.map (fun p => p.1)).toFinset \ seen.toFinset := by
  intro l
  induction l with
  | nil => intro seen; simp [dedupeAux]
  | cons a rest ih =>
    intro seen
    obtain ⟨h, t, e⟩ := a
    by_cases hs : h ∈ seen
    · rw [show dedupeAux seen ((h, t, e) :: rest) = dedupeAux seen rest from by
        simp [dedupeAux, hs]]
      rw [ih seen]
      ext x
      simp only [List.map_cons, List.toFinset_cons, Finset.mem_sdiff,
        Finset.mem_insert, List.mem_toFinset]
      constructor
      · rintro ⟨hx, hxs⟩; exact ⟨Or.inr hx, hxs⟩
      · rintro ⟨hx | hx, hxs⟩
        · exact absurd (hx ▸ hs) hxs
        · exact ⟨hx, hxs⟩
    · rw [show dedupeAux seen ((h, t, e) :: rest) = (h, t, e) :: dedupeAux (h :: seen) rest
        from by simp [dedupeAux, hs]]
      simp only [List.map_cons, List.toFinset_cons, ih (h :: seen)]
      ext x
      simp only [Finset.mem_insert, Finset.mem_sdiff, List.mem_toFinset,
        List.toFinset_cons, List.mem_cons]
      by_cases hx : x = h
      · subst hx
        simp [hs]
      · constructor
        · rintro (h1 | ⟨h1, h2⟩)
          · exact absurd h1 hx
          · refine ⟨Or.inr h1, ?_⟩
            intro hxs
            exact h2 (by simp [hxs])
        · rintro ⟨h1 | h1, h2⟩
          · exact absurd h1 hx
          · right
            refine ⟨h1, ?_⟩
            intro hmem
            rcases hmem with h3 | h3
            · exact hx h3
            · exact h2 (by simp [h3])

theorem dedupeAux_length (l : List (String × String × Ev)) :
    (dedupeAux [] l).length = ((l.map (fun p => p.1)).toFinset).card := by
  have h1 := (dedupeAux_nodup l []).1
  have h2 := dedupeAux_toFinset l []
  have h3 : ((dedupeAux [] l).map (fun p => p.1)).toFinset.card
      = ((dedupeAux [] l).map (fun p => p.1)).length :=
    List.toFinset_card_of_nodup h1
  rw [h2] at h3
  simp only [List.toFinset_nil, Finset.sdiff_empty, List.length_map] at h3
  exact h3.symm

/-! ### Stage lemmas for append_events -/

theorem stage1_consistent {st : Store} {m : STModel} {idx : FaissIndex}
    (hne : ∀ r ∈ st.chunks, r.hash ≠ (""))
    (hmm : MetaMatches st m) (hfile : st.faissFile = some idx)
    (hlen : idx.vecs.length = st.chunks.length) :
    append_stage1 st m = ⟨st.chunks, idx, idx.vecs.length, some idx⟩ := by
  obtain ⟨h1, h2⟩ := hmm
  unfold append_stage1
  rw [backfill_eq_self hne, hfile, h1, h2, metaDiffers_self, metaDiffers_self]
  simp [hlen]

theorem stage1_drifted {st : Store} {m : STModel} {idx : FaissIndex}
    (hd : st.chunks.map Row.id = List.range st.chunks.length)
    (hne : ∀ r ∈ st.chunks, r.hash ≠ (""))
    (hh : Honest m)
    (hmm : MetaMatches st m) (hfile : st.faissFile = some idx)
    (hlen : idx.vecs.length ≠ st.chunks.length) :
    append_stage1 st m = ⟨st.chunks, rebuiltIndex st.chunks m, st.chunks.length,
      some (rebuiltIndex st.chunks m)⟩ := by
  obtain ⟨h1, h2⟩ := hmm
  unfold append_stage1
  rw [backfill_eq_self hne, hfile, h1, h2, metaDiffers_self, metaDiffers_self]
  have hrl : (rebuiltIndex st.chunks m).vecs.length = st.chunks.length := by
    simp [rebuiltIndex, STModel.encode]
  simp [rebuild_of_dense_honest hd hh, hrl, Ne.symm hlen]

theorem stage1_metaMismatch {st : Store} {m : STModel}
    (hd : st.chunks.map Row.id = List.range st.chunks.length)
    (hne : ∀ r ∈ st.chunks, r.hash ≠ (""))
    (hh : Honest m)
    (hmis : metaDiffers st.meta.emb_model m.name = true ∨
      metaDiffers st.meta.emb_dim (toString m.decl_dim) = true) :
    append_stage1 st m = ⟨st.chunks, rebuiltIndex st.chunks m, st.chunks.length,
      some (rebuiltIndex st.chunks m)⟩ := by
  have hrb := rebuild_of_dense_honest hd hh
  have hrl : (rebuiltIndex st.chunks m).vecs.length = st.chunks.length := by
    simp [rebuiltIndex, STModel.encode]
  unfold append_stage1
  rw [backfill_eq_self hne]
  cases hm1 : metaDiffers st.meta.emb_model m.name with
  | true =>
    cases hm2 : metaDiffers st.meta.emb_dim (toString m.decl_dim) with
    | true =>
      cases hfile : st.faissFile with
      | none => simp [hrb, hrl]
      | some idx => simp [hrb, hrl]
    | false =>
      cases hfile : st.faissFile with
      | none => simp [hrb, hrl]
      | some idx => simp [hrb, hrl]
  | false =>
    have hm2 : metaDiffers st.meta.emb_dim (toString m.decl_dim) = true := by
      rcases hmis with h | h
      · rw [hm1] at h; cases h
      · exact h
    cases hfile : st.faissFile with
    | none => simp [hm2, hrb, hrl]
    | some idx => simp [hm2, hrb, hrl]

theorem newRecords_fresh {events : List Ev} {chunks : List Row} :
    ∀ p ∈ newRecords events chunks, ¬ p.1 ∈ existingHashes chunks := by
  intro p hp
  have := (List.mem_filter.mp hp).2
  simpa using this

theorem newRecords_sub {events : List Ev} {chunks : List Row} {p : String × String × Ev}
    (hp : p ∈ newRecords events chunks) : p ∈ _load_events_texts events :=
  (List.filter_sublist _).subset hp

theorem newRecords_hash_nodup {events : List Ev} {chunks : List Row}
    (hnodup : ((_load_events_texts events).map (fun p => p.1)).Nodup) :
    ((newRecords events chunks).map (fun p => p.1)).Nodup :=
  List.Nodup.sublist (List.Sublist.map _ (List.filter_sublist _)) hnodup

theorem newRecords_eq_of_fresh {events : List Ev} {chunks : List Row}
    (hfresh : ∀ p ∈ _load_events_texts events, ¬ p.1 ∈ existingHashes chunks) :
    newRecords events chunks = _load_events_texts events := by
  refine List.filter_eq_self.mpr (fun p hp => ?_)
  simpa using hfresh p hp

theorem newRecords_eq_nil_of_stale {events : List Ev} {chunks : List Row}
    (hstale : ∀ p ∈ _load_events_texts events, p.1 ∈ existingHashes chunks) :
    newRecords events chunks = [] := by
  refine List.filter_eq_nil_iff.mpr (fun p hp => ?_)
  simpa using hstale p hp

theorem mem_existingHashes {chunks : List Row} {x : Row} (hx : x ∈ chunks)
    (hne : x.hash ≠ ("")) : x.hash ∈ existingHashes chunks :=
  List.mem_filter.mpr ⟨List.mem_map_of_mem Row.hash hx, by simpa using hne⟩

theorem fold_new_rows {chunks : List Row} {new : List (String × String × Ev)}
    (hids : chunks.map Row.id = List.range chunks.length)
    (hne : ∀ r ∈ chunks, r.hash ≠ (""))
    (hfresh : ∀ p ∈ new, ¬ p.1 ∈ existingHashes chunks)
    (hnodupN : (new.map (fun p => p.1)).Nodup) :
    (mkRows chunks.length new).foldl insertOrReplace chunks
      = chunks ++ mkRows chunks.length new := by
  refine foldl_ins_no_conflict _ chunks ?_ (mkRows_id_nodup new chunks.length) ?_
  · intro s hs x hx
    constructor
    · have h1 : x.id < chunks.length := id_lt_of_dense hids hx
      have h2 : chunks.length ≤ s.id := mkRows_id_ge hs
      omega
    · intro heq
      have hsm : s.hash ∈ (mkRows chunks.length new).map Row.hash :=
        List.mem_map_of_mem Row.hash hs
      rw [mkRows_map_hash] at hsm
      obtain ⟨p, hp, hph⟩ := List.mem_map.mp hsm
      have : ¬ p.1 ∈ existingHashes chunks := hfresh p hp
      apply this
      rw [hph, ← heq]
      exact mem_existingHashes hx (hne x hx)
  · rw [mkRows_map_hash]
    exact hnodupN

theorem stage2_clean {m : STModel} {events : List Ev} {es : EngineState}
    (hfe : es.fileE = some es.indexE)
    (hd : es.indexE.d = m.decl_dim)
    (hlen : es.indexE.vecs.length = es.chunksE.length)
    (hids : es.chunksE.map Row.id = List.range es.chunksE.length)
    (hne : ∀ r ∈ es.chunksE, r.hash ≠ (""))
    (hh : Honest m)
    (hnodup : ((_load_events_texts events).map (fun p => p.1)).Nodup) :
    append_stage2 m true events es = Except.ok
      (⟨(newRecords events es.chunksE).length, es.chunksE.length,
        es.chunksE.length + (newRecords events es.chunksE).length, false⟩,
       ⟨es.chunksE ++ mkRows es.chunksE.length (newRecords events es.chunksE),
        metaOf m,
        some ⟨m.decl_dim, es.indexE.vecs
          ++ m.encode ((newRecords events es.chunksE).map (fun p => p.2.1))⟩⟩) := by
  have hidx : (⟨m.decl_dim, es.indexE.vecs⟩ : FaissIndex) = es.indexE := by
    rw [← hd]
  simp only [append_stage2]
  rw [if_pos trivial]
  have hfilt : List.filter (fun p => decide (p.1 ∉ existingHashes es.chunksE))
      (_load_events_texts events) = newRecords events es.chunksE := rfl
  rw [hfilt]
  by_cases hc : newRecords events es.chunksE = []
  · rw [hc]
    simp only [List.isEmpty_nil, if_true, mkRows, List.append_nil, List.map_nil,
      List.length_nil, Nat.add_zero]
    rw [hfe]
    have henc : m.encode [] = [] := rfl
    rw [henc, List.append_nil, hidx]
    rfl
  · have hie : (newRecords events es.chunksE).isEmpty = false := by
      cases hb : (newRecords events es.chunksE).isEmpty
      · rfl
      · exact absurd (List.isEmpty_iff.mp hb) hc
    rw [hie]
    simp only [Bool.false_eq_true, if_false]
    rw [if_neg (fun hk => hk hh)]
    rw [add_encode es.indexE m _ (hh.trans hd.symm)]
    rw [fold_new_rows hids hne newRecords_fresh (newRecords_hash_nodup hnodup)]
    have hrca : (es.chunksE ++ mkRows es.chunksE.length (newRecords events es.chunksE)).length
        = es.chunksE.length + (newRecords events es.chunksE).length := by
      rw [List.length_append, mkRows_length]
    have hlen2 : (es.indexE.vecs ++ m.encode ((newRecords events es.chunksE).map (fun p => p.2.1))).length
        = es.chunksE.length + (newRecords events es.chunksE).length := by
      rw [List.length_append, encode_length, List.length_map, hlen]
    simp only [metaOf, hd]
    simp [hrca, hlen2]

theorem metaOf_eq_of_matches {st : Store} {m : STModel} (hmm : MetaMatches st m) :
    metaOf m = st.meta := by
  obtain ⟨h1, h2⟩ := hmm
  have hst : st.meta = ⟨st.meta.emb_model, st.meta.emb_dim⟩ := rfl
  rw [hst, h1, h2]
  rfl

theorem append_core {st : Store} {m : STModel} {I : FaissIndex} {k0 : Nat}
    {events : List Ev}
    (hstage1 : append_stage1 st m = ⟨st.chunks, I, k0, some I⟩)
    (hd : I.d = m.decl_dim) (hlen : I.vecs.length = st.chunks.length)
    (hids : st.chunks.map Row.id = List.range st.chunks.length)
    (hne : ∀ r ∈ st.chunks, r.hash ≠ (""))
    (hh : Honest m)
    (hnodup : ((_load_events_texts events).map (fun p => p.1)).Nodup) :
    append_events events st m true = Except.ok
      (⟨(newRecords events st.chunks).length, st.chunks.length,
        st.chunks.length + (newRecords events st.chunks).length, false⟩,
       ⟨st.chunks ++ mkRows st.chunks.length (newRecords events st.chunks),
        metaOf m,
        some ⟨m.decl_dim, I.vecs
          ++ m.encode ((newRecords events st.chunks).map (fun p => p.2.1))⟩⟩) := by
  show append_stage2 m true events (append_stage1 st m) = _
  rw [hstage1]
  exact stage2_clean rfl hd hlen hids hne hh hnodup

theorem mkRows_hash_mem {l : List (String × String × Ev)} {s : Nat} {r : Row}
    (hr : r ∈ mkRows s l) : r.hash ∈ l.map (fun p => p.1) := by
  have := List.mem_map_of_mem Row.hash hr
  rwa [mkRows_map_hash] at this

theorem appended_ids {chunks : List Row} (new : List (String × String × Ev))
    (hids : chunks.map Row.id = List.range chunks.length) :
    (chunks ++ mkRows chunks.length new).map Row.id
      = List.range (chunks.length + new.length) := by
  rw [List.map_append, hids, range_append_mkRows]

theorem appended_hash_ne {events : List Ev} {chunks : List Row}
    (hne : ∀ r ∈ chunks, r.hash ≠ ("")) :
    ∀ r ∈ chunks ++ mkRows chunks.length (newRecords events chunks), r.hash ≠ ("") := by
  intro r hr
  rcases List.mem_append.mp hr with h1 | h2
  · exact hne r h1
  · obtain ⟨p, hp, hph⟩ := List.mem_map.mp (mkRows_hash_mem h2)
    rw [← hph]
    exact load_hash_ne (newRecords_sub hp)

theorem appended_hash_nodup {events : List Ev} {chunks : List Row}
    (hhash : (chunks.map Row.hash).Nodup)
    (hne : ∀ r ∈ chunks, r.hash ≠ (""))
    (hnodup : ((_load_events_texts events).map (fun p => p.1)).Nodup) :
    ((chunks ++ mkRows chunks.length (newRecords events chunks)).map Row.hash).Nodup := by
  rw [List.map_append, mkRows_map_hash, List.nodup_append]
  refine ⟨hhash, newRecords_hash_nodup hnodup, ?_⟩
  intro a ha hb
  obtain ⟨x, hx, rfl⟩ := List.mem_map.mp ha
  obtain ⟨p, hp, hpa⟩ := List.mem_map.mp hb
  exact newRecords_fresh p hp (hpa ▸ mem_existingHashes hx (hne x hx))

theorem append_noop {st : Store} {m : STModel} {idx : FaissIndex} {events : List Ev}
    (hids : st.chunks.map Row.id = List.range st.chunks.length)
    (hne : ∀ r ∈ st.chunks, r.hash ≠ (""))
    (hmm : MetaMatches st m) (hh : Honest m)
    (hfile : st.faissFile = some idx) (hd : idx.d = m.decl_dim)
    (hlen : idx.vecs.length = st.chunks.length)
    (hnodup : ((_load_events_texts events).map (fun p => p.1)).Nodup)
    (hstale : ∀ p ∈ _load_events_texts events, p.1 ∈ existingHashes st.chunks) :
    append_events events st m true = Except.ok
      (⟨0, st.chunks.length, st.chunks.length, false⟩, st) := by
  have hcore := append_core (stage1_consistent hne hmm hfile hlen) hd hlen hids hne hh hnodup
  rw [newRecords_eq_nil_of_stale hstale] at hcore
  rw [hcore]
  have henc : m.encode (([] : List (String × String × Ev)).map (fun p => p.2.1)) = [] := rfl
  simp only [mkRows, List.append_nil, List.length_nil, Nat.add_zero, henc]
  rw [metaOf_eq_of_matches hmm]
  have hfa : some (⟨m.decl_dim, idx.vecs⟩ : FaissIndex) = st.faissFile := by
    rw [hfile, ← hd]
  rw [hfa]

theorem append_run {st : Store} {m : STModel} {idx : FaissIndex} {events : List Ev}
    (hids : st.chunks.map Row.id = List.range st.chunks.length)
    (hhash : (st.chunks.map Row.hash).Nodup)
    (hne : ∀ r ∈ st.chunks, r.hash ≠ (""))
    (hmm : MetaMatches st m) (hh : Honest m)
    (hfile : st.faissFile = some idx) (hd : idx.d = m.decl_dim)
    (hnodup : ((_load_events_texts events).map (fun p => p.1)).Nodup) :
    ∃ st' : Store,
      append_events events st m true = Except.ok
        (⟨(newRecords events st.chunks).length, st.chunks.length,
          st.chunks.length + (newRecords events st.chunks).length, false⟩, st') ∧
      st'.chunks = st.chunks ++ mkRows st.chunks.length (newRecords events st.chunks) ∧
      st'.meta = st.meta ∧
      (∃ idx2 : FaissIndex, st'.faissFile = some idx2 ∧ idx2.d = m.decl_dim ∧
        idx2.vecs.length = st.chunks.length + (newRecords events st.chunks).length) ∧
      st'.chunks.map Row.id = List.range st'.chunks.length ∧
      (st'.chunks.map Row.hash).Nodup ∧
      (∀ r ∈ st'.chunks, r.hash ≠ ("")) := by
  have hlen2 : ∀ I : FaissIndex, I.vecs.length = st.chunks.length →
      (I.vecs ++ m.encode ((newRecords events st.chunks).map (fun p => p.2.1))).length
        = st.chunks.length + (newRecords events st.chunks).length := by
    intro I hI
    rw [List.length_append, encode_length, List.length_map, hI]
  have hwfids : (st.chunks ++ mkRows st.chunks.length (newRecords events st.chunks)).map Row.id
      = List.range ((st.chunks ++ mkRows st.chunks.length (newRecords events st.chunks)).length) := by
    rw [appended_ids _ hids, List.length_append, mkRows_length]
  by_cases hcons : idx.vecs.length = st.chunks.length
  · have hcore := append_core (stage1_consistent hne hmm hfile hcons) hd hcons hids hne hh hnodup
    refine ⟨_, hcore, rfl, metaOf_eq_of_matches hmm, ⟨_, rfl, rfl, hlen2 idx hcons⟩,
      hwfids, appended_hash_nodup hhash hne hnodup, appended_hash_ne hne⟩
  · have hs1 := stage1_drifted hids hne hh hmm hfile (fun hk => hcons hk)
    have hrl : (rebuiltIndex st.chunks m).vecs.length = st.chunks.length := by
      simp [rebuiltIndex, STModel.encode]
    have hs1b : append_stage1 st m = ⟨st.chunks, rebuiltIndex st.chunks m,
        (rebuiltIndex st.chunks m).vecs.length, some (rebuiltIndex st.chunks m)⟩ := by
      rw [hs1, hrl]
    have hcore := append_core hs1b rfl hrl hids hne hh hnodup
    refine ⟨_, hcore, rfl, metaOf_eq_of_matches hmm,
      ⟨_, rfl, rfl, hlen2 (rebuiltIndex st.chunks m) hrl⟩,
      hwfids, appended_hash_nodup hhash hne hnodup, appended_hash_ne hne⟩

theorem ntotalOfStore_eq {st : Store} {i : FaissIndex} (h : st.faissFile = some i) :
    ntotalOfStore st = i.vecs.length := by
  simp [ntotalOfStore, h]

theorem append_dim_mismatch_run {st : Store} {m : STModel} {idx : FaissIndex}
    {events : List Ev}
    (hdis : m.out_dim ≠ m.decl_dim)
    (hids : st.chunks.map Row.id = List.range st.chunks.length)
    (hne : ∀ r ∈ st.chunks, r.hash ≠ (""))
    (hmm : MetaMatches st m)
    (hfile : st.faissFile = some idx) (hd : idx.d = m.decl_dim)
    (hlen : idx.vecs.length = st.chunks.length)
    (hcne : st.chunks ≠ [])
    (hnodup : ((_load_events_texts events).map (fun p => p.1)).Nodup)
    (hfresh : ∀ p ∈ _load_events_texts events, ¬ p.1 ∈ existingHashes st.chunks)
    (hene : events ≠ []) :
    append_events events st m true = Except.ok
      (⟨events.length, st.chunks.length, st.chunks.length + events.length, false⟩,
       ⟨st.chunks ++ mkRows st.chunks.length (_load_events_texts events),
        metaOf m,
        some ⟨m.out_dim, m.encode (st.chunks.map Row.text)
          ++ m.encode ((_load_events_texts events).map (fun p => p.2.1))⟩⟩) := by
  show append_stage2 m true events (append_stage1 st m) = _
  rw [stage1_consistent hne hmm hfile hlen]
  simp only [append_stage2]
  rw [if_pos trivial]
  have hfilt : List.filter (fun p => decide (p.1 ∉ existingHashes st.chunks))
      (_load_events_texts events) = newRecords events st.chunks := rfl
  rw [hfilt, newRecords_eq_of_fresh hfresh]
  have hpne : _load_events_texts events ≠ [] := by
    intro hp
    exact hene (by simpa [_load_events_texts] using hp)
  have hie : (_load_events_texts events).isEmpty = false := by
    cases hb : (_load_events_texts events).isEmpty
    · rfl
    · exact absurd (List.isEmpty_iff.mp hb) hpne
  rw [hie]
  simp only [Bool.false_eq_true, if_false]
  rw [if_pos hdis]
  rw [rebuild_of_dense_ne hids hcne]
  rw [add_encode ⟨m.out_dim, m.encode (st.chunks.map Row.text)⟩ m _ rfl]
  rw [fold_new_rows hids hne hfresh hnodup]
  have hrca : (st.chunks ++ mkRows st.chunks.length (_load_events_texts events)).length
      = st.chunks.length + events.length := by
    rw [List.length_append, mkRows_length, _load_events_texts, List.length_map]
  have hpl : (_load_events_texts events).length = events.length := by
    rw [_load_events_texts, List.length_map]
  have hlen2 : (m.encode (st.chunks.map Row.text)
      ++ m.encode ((_load_events_texts events).map (fun p => p.2.1))).length
      = st.chunks.length + events.length := by
    rw [List.length_append, encode_length, encode_length, List.length_map,
      List.length_map, hpl]
  simp only [metaOf]
  simp [hrca, hpl, hlen2]

/-! ### Run lemmas for rebuild_events -/

theorem rebuild_index_eq {m : STModel} (hh : Honest m) (texts : List String) :
    (if texts.isEmpty = true then some (IndexFlatIP m.decl_dim)
      else (IndexFlatIP m.decl_dim).add (m.encode texts))
      = some ⟨m.decl_dim, m.encode texts⟩ := by
  cases texts with
  | nil => simp [IndexFlatIP, STModel.encode]
  | cons a l =>
    have : ((a :: l).isEmpty = true) = False := by simp
    rw [if_neg (by simp)]
    rw [add_encode (IndexFlatIP m.decl_dim) m (a :: l) hh]
    rw [IndexFlatIP]
    simp

theorem rebuild_run_dedupe (events : List Ev) (st : Store) (m : STModel)
    (hh : Honest m) :
    rebuild_events events st m true = Except.ok
      (⟨(dedupeAux [] (_load_events_texts events)).length, 0,
        (dedupeAux [] (_load_events_texts events)).length, true, false⟩,
       ⟨mkRows 0 (dedupeAux [] (_load_events_texts events)), metaOf m,
        some ⟨m.decl_dim,
          m.encode ((dedupeAux [] (_load_events_texts events)).map (fun p => p.2.1))⟩⟩) := by
  simp only [rebuild_events]
  rw [if_pos trivial]
  rw [rebuild_index_eq hh]
  have hnodupR : ((dedupeAux [] (_load_events_texts events)).map (fun p => p.1)).Nodup :=
    (dedupeAux_nodup (_load_events_texts events) []).1
  have hfold : (mkRows 0 (dedupeAux [] (_load_events_texts events))).foldl insertOrReplace []
      = [] ++ mkRows 0 (dedupeAux [] (_load_events_texts events)) := by
    refine foldl_ins_no_conflict _ [] (fun s hs x hx => absurd hx (List.not_mem_nil x))
      (mkRows_id_nodup _ 0) ?_
    rw [mkRows_map_hash]
    exact hnodupR
  rw [List.nil_append] at hfold
  rw [hfold]
  simp only [metaOf]
  simp [mkRows_length, encode_length]

theorem rebuild_run_nodedupe (events : List Ev) (st : Store) (m : STModel)
    (hh : Honest m) :
    ∃ chunksF : List Row,
      rebuild_events events st m false = Except.ok
        (⟨events.length, 0, distinctHashCount events,
          decide (distinctHashCount events = events.length),
          !(decide (distinctHashCount events = events.length))⟩,
         ⟨chunksF, metaOf m,
          some ⟨m.decl_dim, m.encode ((_load_events_texts events).map (fun p => p.2.1))⟩⟩) ∧
      chunksF.length = distinctHashCount events := by
  have hcount := foldl_ins_count (_load_events_texts events) [] 0
    (fun p hp => load_hash_ne hp) (by simp) (by simp) (by simp)
  have hcnt : ((mkRows 0 (_load_events_texts events)).foldl insertOrReplace []).length
      = distinctHashCount events := by
    have h1 := hcount.1
    have h2 := hcount.2.2.2
    simp only [List.map_nil, List.toFinset_nil, Finset.empty_union] at h2
    have h3 := List.toFinset_card_of_nodup h1
    rw [h2] at h3
    rw [List.length_map] at h3
    rw [← h3, distinctHashCount, ← load_map_fst]
  refine ⟨(mkRows 0 (_load_events_texts events)).foldl insertOrReplace [], ?_, hcnt⟩
  simp only [rebuild_events, Bool.false_eq_true, if_false]
  rw [rebuild_index_eq hh]
  have hpl : (_load_events_texts events).length = events.length := by
    rw [_load_events_texts, List.length_map]
  have hntot : (⟨m.decl_dim, m.encode ((_load_events_texts events).map (fun p => p.2.1))⟩ : FaissIndex).vecs.length = events.length := by
    simp only [encode_length, List.length_map]
    exact hpl
  simp only [metaOf]
  simp [hcnt, hpl, hntot]

/-! ### Canonicalization lemmas -/

theorem fieldLine_normOpt (k : String) (v : Option String) :
    fieldLine k (normOpt v) = fieldLine k v := by
  cases v with
  | none => rfl
  | some s =>
    by_cases hs : s = ("")
    · simp [normOpt, fieldLine, hs]
    · simp [normOpt, fieldLine, hs]

theorem chunk_text_normEv (ev : Ev) :
    _chunk_text_fields (normEv ev) = _chunk_text_fields ev := by
  simp only [_chunk_text_fields, normEv, fieldLine_normOpt]

/-! ### Claim theorems -/

/-- C1: refuted on the code as written. Appending a batch holding two
records with the same canonical hash to an empty store returns
successfully (warning flag set, no exception) while the chunks table ends
with 1 row and the FAISS index with 2 vectors: append_events has no batch
internal dedupe and INSERT OR REPLACE collapses the duplicate hash row,
so row_count(MetadataStore) differs from total(VectorIndex) after a
successful call. -/
theorem append_duplicate_batch_breaks_bijection :
    ((append_events [evA, evA] emptyStore m4 true).toOption.map
      (fun p => (p.2.chunks.length, ntotalOfStore p.2, p.1.warning)))
      = some (1, 2, true) ∧ (1 : Nat) ≠ 2 := by
  constructor
  · rfl
  · decide

/-- C2: refuted on the code as written. On an empty store,
append_events([evA, evA]) with dedupe returns added = 2 and
total_after = 1, not added = 1 and total_after = 1: the library function
drops only records whose hash is already committed, never batch internal
duplicates. The CLI loop of ingest_faiss.py on the same input keeps just
one record, which is the behavior the claim describes. -/
theorem append_scenario_duplicate_titles_added_two :
    ((append_events [evA, evA] emptyStore m4 true).toOption.map
      (fun p => (p.1.added, p.1.total_after))) = some (2, 1)
    ∧ (ingest_new_records [evA, evA] [] false).length = 1
    ∧ (2 : Nat) ≠ 1 := by
  refine ⟨rfl, rfl, by decide⟩

/-- C9: refuted on the code as written. With dedupe = false,
append_events([evA, evA]) on an empty store embeds and adds both
duplicates (added = 2, ntotal = 2) and the second INSERT OR REPLACE
deletes the first row via the unique hash index, leaving the single row
id 1: ids are neither dense nor is the duplicate collapsed. The CLI loop
of ingest_faiss.py with no_dedupe keeps one record, as the claim
describes. -/
theorem append_nodedupe_no_batch_collapse :
    ((append_events [evA, evA] emptyStore m4 false).toOption.map
      (fun p => (p.1.added, p.2.chunks.map Row.id, ntotalOfStore p.2)))
      = some (2, [1], 2)
    ∧ (ingest_new_records [evA, evA] [] true).length = 1
    ∧ ([1] : List Nat) ≠ List.range 2 := by
  refine ⟨rfl, rfl, by decide⟩

/-- C3 counterexample: with a provider returning dimension 3 while
declaring 4, append_events on a consistent one row store succeeds and
writes both stores (chunks grow from 1 to 2 rows, the index file holds 2
vectors): no abort happens before the writes. -/
theorem append_dim_mismatch_commits_writes_cex :
    ((append_events [evB] oneStore mBad true).toOption.map
      (fun p => (p.1.added, p.2.chunks.length, ntotalOfStore p.2)))
      = some (1, 2, 2)
    ∧ oneStore.chunks.length = 1 := by
  refine ⟨rfl, rfl⟩

/-- C3 amended: on an embedding dimension mismatch, append_events does not
abort; when the store has at least one row it rebuilds the FAISS index
from the SQLite rows with the current provider (at the dimension the
provider actually returns) and then appends the batch vectors and inserts
the rows, returning a successful summary. -/
theorem append_dim_mismatch_rebuilds_then_writes {st : Store} {m : STModel}
    {idx : FaissIndex} {events : List Ev}
    (hdis : m.out_dim ≠ m.decl_dim)
    (hids : st.chunks.map Row.id = List.range st.chunks.length)
    (hne : ∀ r ∈ st.chunks, r.hash ≠ (""))
    (hmm : MetaMatches st m)
    (hfile : st.faissFile = some idx) (hd : idx.d = m.decl_dim)
    (hlen : idx.vecs.length = st.chunks.length)
    (hcne : st.chunks ≠ [])
    (hnodup : ((_load_events_texts events).map (fun p => p.1)).Nodup)
    (hfresh : ∀ p ∈ _load_events_texts events, ¬ p.1 ∈ existingHashes st.chunks)
    (hene : events ≠ []) :
    append_events events st m true = Except.ok
      (⟨events.length, st.chunks.length, st.chunks.length + events.length, false⟩,
       ⟨st.chunks ++ mkRows st.chunks.length (_load_events_texts events),
        metaOf m,
        some ⟨m.out_dim, m.encode (st.chunks.map Row.text)
          ++ m.encode ((_load_events_texts events).map (fun p => p.2.1))⟩⟩) :=
  append_dim_mismatch_run hdis hids hne hmm hfile hd hlen hcne hnodup hfresh hene

/-- C3 amended witness: the one row store with the dimension 3 provider
that declares 4; the call commits both writes. -/
theorem append_dim_mismatch_rebuilds_then_writes_witness :
    mBad.out_dim ≠ mBad.decl_dim ∧
    (∃ s : AppendSummary, ∃ st' : Store,
      append_events [evB] oneStore mBad true = Except.ok (s, st')) := by
  have h := append_dim_mismatch_rebuilds_then_writes
    (show mBad.out_dim ≠ mBad.decl_dim by decide)
    (show oneStore.chunks.map Row.id = List.range oneStore.chunks.length by decide)
    (show ∀ r ∈ oneStore.chunks, r.hash ≠ ("") by decide)
    (show MetaMatches oneStore mBad from ⟨rfl, rfl⟩)
    (rfl : oneStore.faissFile = some (⟨4, [⟨("MiniLM"), 4, _chunk_text_fields evA⟩]⟩ : FaissIndex))
    rfl rfl
    (show oneStore.chunks ≠ [] by decide)
    (show ((_load_events_texts [evB]).map (fun p => p.1)).Nodup by decide)
    (show ∀ p ∈ _load_events_texts [evB], ¬ p.1 ∈ existingHashes oneStore.chunks by decide)
    (show ([evB] : List Ev) ≠ [] by decide)
  exact ⟨by decide, _, _, h⟩

/-- C4 counterexample: a drifted store (1 row, empty index file) appended
with a batch of two records of equal hash: the drift rebuild runs and
total_before = 1 is the corrected row count, but after the call the
chunks table has 2 rows while the index has 3 vectors, so the bijection
invariant does not hold at return. -/
theorem append_drifted_duplicate_batch_cex :
    ((append_events [evB, evB] driftedStore m4 true).toOption.map
      (fun p => (p.1.total_before, p.2.chunks.length, ntotalOfStore p.2)))
      = some (1, 2, 3) ∧ (2 : Nat) ≠ 3 := by
  refine ⟨rfl, by decide⟩

/-- C4 amended: on any store whose index file count disagrees with the
row count, the next append_events call (an empty batch included) rebuilds
the index from the SQLite rows, reports total_before equal to the
corrected row count, and restores the bijection invariant provided the
batch canonical hashes are pairwise distinct. -/
theorem append_self_heals_total_before_corrected {st : Store} {m : STModel}
    {idx : FaissIndex} {events : List Ev}
    (hids : st.chunks.map Row.id = List.range st.chunks.length)
    (hhash : (st.chunks.map Row.hash).Nodup)
    (hne : ∀ r ∈ st.chunks, r.hash ≠ (""))
    (hmm : MetaMatches st m) (hh : Honest m)
    (hfile : st.faissFile = some idx) (hd : idx.d = m.decl_dim)
    (hdrift : idx.vecs.length ≠ st.chunks.length)
    (hnodup : ((_load_events_texts events).map (fun p => p.1)).Nodup) :
    ∃ s : AppendSummary, ∃ st' : Store,
      append_events events st m true = Except.ok (s, st') ∧
      s.total_before = st.chunks.length ∧
      st'.chunks.length = ntotalOfStore st' := by
  obtain ⟨st', hrun, hchunks, hmeta, ⟨idx2, hf2, hd2, hl2⟩, hwf⟩ :=
    append_run hids hhash hne hmm hh hfile hd hnodup
  refine ⟨_, st', hrun, rfl, ?_⟩
  rw [hchunks, List.length_append, mkRows_length, ntotalOfStore_eq hf2, hl2]

/-- C4 amended witness: the drifted store with an empty batch: the call
returns total_before = 1 and a consistent store. -/
theorem append_self_heals_total_before_corrected_witness :
    ((⟨4, []⟩ : FaissIndex)).vecs.length ≠ driftedStore.chunks.length ∧
    (∃ s : AppendSummary, ∃ st' : Store,
      append_events [] driftedStore m4 true = Except.ok (s, st') ∧
      s.total_before = driftedStore.chunks.length ∧
      st'.chunks.length = ntotalOfStore st') := by
  refine ⟨by decide, ?_⟩
  exact append_self_heals_total_before_corrected (by decide) (by decide) (by decide)
    ⟨rfl, rfl⟩ rfl
    (rfl : driftedStore.faissFile = some (⟨4, []⟩ : FaissIndex))
    rfl (by decide) (by decide)

/-- C5: confirmed. Appending a batch of pairwise distinct hash records
that are all new to a consistent store yields added = N; appending the
same batch again to the resulting store yields added = 0 with the same
total_after, and the second call returns the first call state unchanged
(same chunks, same meta, same index file). -/
theorem append_dedupe_idempotent {st : Store} {m : STModel} {idx : FaissIndex}
    {events : List Ev}
    (hids : st.chunks.map Row.id = List.range st.chunks.length)
    (hhash : (st.chunks.map Row.hash).Nodup)
    (hne : ∀ r ∈ st.chunks, r.hash ≠ (""))
    (hmm : MetaMatches st m) (hh : Honest m)
    (hfile : st.faissFile = some idx) (hd : idx.d = m.decl_dim)
    (hlen : idx.vecs.length = st.chunks.length)
    (hnodup : ((_load_events_texts events).map (fun p => p.1)).Nodup)
    (hfresh : ∀ p ∈ _load_events_texts events, ¬ p.1 ∈ existingHashes st.chunks) :
    ∃ s1 : AppendSummary, ∃ st1 : Store,
      append_events events st m true = Except.ok (s1, st1) ∧
      s1.added = events.length ∧
      append_events events st1 m true = Except.ok
        (⟨0, s1.total_after, s1.total_after, false⟩, st1) := by
  obtain ⟨st1, hrun, hchunks, hmeta, ⟨idx2, hf2, hd2, hl2⟩, hids1, hhash1, hne1⟩ :=
    append_run hids hhash hne hmm hh hfile hd hnodup
  have hk : newRecords events st.chunks = _load_events_texts events :=
    newRecords_eq_of_fresh hfresh
  refine ⟨_, st1, hrun, ?_, ?_⟩
  · show (newRecords events st.chunks).length = events.length
    rw [hk, _load_events_texts, List.length_map]
  · have hmm1 : MetaMatches st1 m :=
      ⟨by rw [hmeta]; exact hmm.1, by rw [hmeta]; exact hmm.2⟩
    have hta : st.chunks.length + (newRecords events st.chunks).length
        = st1.chunks.length := by
      rw [hchunks, List.length_append, mkRows_length]
    have hlen1 : idx2.vecs.length = st1.chunks.length := by
      rw [hl2, hta]
    have hstale : ∀ p ∈ _load_events_texts events, p.1 ∈ existingHashes st1.chunks := by
      intro p hp
      refine List.mem_filter.mpr ⟨?_, by simpa using load_hash_ne hp⟩
      rw [hchunks, List.map_append, mkRows_map_hash, hk]
      exact List.mem_append.mpr (Or.inr (List.mem_map.mpr ⟨p, hp, rfl⟩))
    have hsecond := append_noop hids1 hne1 hmm1 hh hf2 hd2 hlen1 hnodup hstale
    rw [← hta] at hsecond
    exact hsecond

/-- C5 witness: one fresh record appended twice to an empty initialized
store. -/
theorem append_dedupe_idempotent_witness :
    (∀ p ∈ _load_events_texts [evA], ¬ p.1 ∈ existingHashes wStore.chunks) ∧
    (∃ s1 : AppendSummary, ∃ st1 : Store,
      append_events [evA] wStore m4 true = Except.ok (s1, st1) ∧
      s1.added = ([evA] : List Ev).length ∧
      append_events [evA] st1 m4 true = Except.ok
        (⟨0, s1.total_after, s1.total_after, false⟩, st1)) := by
  refine ⟨by decide, ?_⟩
  exact append_dedupe_idempotent (by decide) (by decide) (by decide)
    (show MetaMatches wStore m4 from ⟨rfl, rfl⟩) rfl
    (rfl : wStore.faissFile = some (⟨4, []⟩ : FaissIndex))
    rfl rfl (by decide) (by decide)

/-- C6: confirmed. When the recorded emb_model or emb_dim metadata is
present and differs from the current provider, append_events rebuilds the
whole FAISS index from the SQLite rows, re-embedding them with the
current provider, before appending the embeddings of the new records:
afterwards the index file holds exactly the current provider embeddings
of the old rows followed by those of the batch, so every vector comes
from the current provider. -/
theorem append_model_change_rebuilds_with_current_provider {st : Store}
    {m : STModel} {events : List Ev}
    (hids : st.chunks.map Row.id = List.range st.chunks.length)
    (hne : ∀ r ∈ st.chunks, r.hash ≠ (""))
    (hh : Honest m)
    (hmis : metaDiffers st.meta.emb_model m.name = true ∨
      metaDiffers st.meta.emb_dim (toString m.decl_dim) = true)
    (hnodup : ((_load_events_texts events).map (fun p => p.1)).Nodup)
    (hfresh : ∀ p ∈ _load_events_texts events, ¬ p.1 ∈ existingHashes st.chunks) :
    ∃ s : AppendSummary, ∃ st' : Store, ∃ i : FaissIndex,
      append_events events st m true = Except.ok (s, st') ∧
      st'.faissFile = some i ∧
      i.vecs = m.encode (st.chunks.map Row.text)
        ++ m.encode ((_load_events_texts events).map (fun p => p.2.1)) ∧
      ∀ e ∈ i.vecs, e.prov = m.name ∧ e.edim = m.out_dim := by
  have hcore := append_core (stage1_metaMismatch hids hne hh hmis) rfl
    (by simp [rebuiltIndex, STModel.encode]) hids hne hh hnodup
  rw [newRecords_eq_of_fresh hfresh] at hcore
  refine ⟨_, _, _, hcore, rfl, rfl, ?_⟩
  intro e he
  rcases List.mem_append.mp he with h1 | h1
  · exact ⟨encode_prov h1, encode_edim h1⟩
  · exact ⟨encode_prov h1, encode_edim h1⟩

/-- C6 witness: a one row store recorded under a different model name;
appending one fresh record re-embeds everything with the current
provider. -/
theorem append_model_change_rebuilds_with_current_provider_witness :
    metaDiffers mmStore.meta.emb_model m4.name = true ∧
    (∃ s : AppendSummary, ∃ st' : Store, ∃ i : FaissIndex,
      append_events [evB] mmStore m4 true = Except.ok (s, st') ∧
      st'.faissFile = some i ∧
      i.vecs = m4.encode (mmStore.chunks.map Row.text)
        ++ m4.encode ((_load_events_texts [evB]).map (fun p => p.2.1)) ∧
      ∀ e ∈ i.vecs, e.prov = m4.name ∧ e.edim = m4.out_dim) := by
  refine ⟨by decide, ?_⟩
  exact append_model_change_rebuilds_with_current_provider (by decide) (by decide) rfl
    (Or.inl (by decide)) (by decide) (by decide)

/-- C7 counterexample: rebuild_events with dedupe = false on a batch of
three records of which two share a hash stores only 2 rows (the unique
hash index collapses the duplicate), so total_after = 2 differs from
len(records) = 3. -/
theorem rebuild_nodedupe_total_after_counts_distinct_cex :
    ((rebuild_events [evB, evB, evC] emptyStore m4 false).toOption.map
      (fun p => (p.1.total_before, p.1.total_after))) = some (0, 2)
    ∧ ([evB, evB, evC] : List Ev).length = 3 ∧ (2 : Nat) ≠ 3 := by
  refine ⟨rfl, rfl, by decide⟩

/-- C7 amended: rebuild_events yields total_after equal to the number of
distinct canonical text hashes in the batch for both dedupe settings
(with dedupe = false the duplicate hash rows are replaced through the
unique hash index while the fresh index still receives len(records)
vectors); total_before is always 0. -/
theorem rebuild_total_after_eq_distinct_hashes (events : List Ev) (st : Store)
    (m : STModel) (dedupe : Bool) (hh : Honest m) :
    ∃ s : RebuildSummary, ∃ st' : Store,
      rebuild_events events st m dedupe = Except.ok (s, st') ∧
      s.total_before = 0 ∧
      s.total_after = distinctHashCount events ∧
      st'.chunks.length = distinctHashCount events ∧
      ntotalOfStore st' = (if dedupe = true then distinctHashCount events
        else events.length) := by
  have hD : (dedupeAux [] (_load_events_texts events)).length = distinctHashCount events := by
    rw [dedupeAux_length, load_map_fst]
    rfl
  cases dedupe with
  | true =>
    refine ⟨_, _, rebuild_run_dedupe events st m hh, rfl, hD, ?_, ?_⟩
    · show (mkRows 0 (dedupeAux [] (_load_events_texts events))).length = _
      rw [mkRows_length, hD]
    · rw [ntotalOfStore_eq rfl]
      show (m.encode ((dedupeAux [] (_load_events_texts events)).map (fun p => p.2.1))).length = _
      rw [encode_length, List.length_map, hD]
      simp
  | false =>
    obtain ⟨chunksF, heq, hlen⟩ := rebuild_run_nodedupe events st m hh
    refine ⟨_, _, heq, rfl, rfl, hlen, ?_⟩
    rw [ntotalOfStore_eq rfl]
    show (m.encode ((_load_events_texts events).map (fun p => p.2.1))).length = _
    rw [encode_length, List.length_map, _load_events_texts, List.length_map]
    simp

/-- C7 amended witness: one record, dedupe on. -/
theorem rebuild_total_after_eq_distinct_hashes_witness :
    Honest m4 ∧
    (∃ s : RebuildSummary, ∃ st' : Store,
      rebuild_events [evA] emptyStore m4 true = Except.ok (s, st') ∧
      s.total_before = 0 ∧
      s.total_after = distinctHashCount [evA] ∧
      st'.chunks.length = distinctHashCount [evA] ∧
      ntotalOfStore st' = (if true = true then distinctHashCount [evA]
        else ([evA] : List Ev).length)) := by
  refine ⟨rfl, ?_⟩
  exact rebuild_total_after_eq_distinct_hashes [evA] emptyStore m4 true rfl

/-- C8 counterexample: rebuild_events with dedupe = false on a duplicate
pair returns successfully with ok = false while the chunks table has 1
row and the index 2 vectors: there is a successful return with the two
stores disagreeing, no error is raised. -/
theorem rebuild_returns_ok_false_on_disagreement_cex :
    ((rebuild_events [evA, evA] emptyStore m4 false).toOption.map
      (fun p => (p.1.ok, p.2.chunks.length, ntotalOfStore p.2)))
      = some (false, 1, 2) ∧ (1 : Nat) ≠ 2 := by
  refine ⟨rfl, by decide⟩

/-- C8 amended: rebuild_events never raises on a count disagreement; it
returns a summary whose ok flag is true exactly when the row count equals
ntotal, and with dedupe = true the store it leaves behind is always
consistent. -/
theorem rebuild_soft_reports_consistency (events : List Ev) (st : Store)
    (m : STModel) (dedupe : Bool) (hh : Honest m) :
    ∃ s : RebuildSummary, ∃ st' : Store,
      rebuild_events events st m dedupe = Except.ok (s, st') ∧
      (s.ok = true ↔ st'.chunks.length = ntotalOfStore st') ∧
      (dedupe = true → st'.chunks.length = ntotalOfStore st' ∧ s.ok = true) := by
  cases dedupe with
  | true =>
    refine ⟨_, _, rebuild_run_dedupe events st m hh, ?_, ?_⟩
    · have hcons : (mkRows 0 (dedupeAux [] (_load_events_texts events))).length
          = (m.encode ((dedupeAux [] (_load_events_texts events)).map (fun p => p.2.1))).length := by
        rw [mkRows_length, encode_length, List.length_map]
      exact ⟨fun _ => by rw [ntotalOfStore_eq rfl]; exact hcons, fun _ => rfl⟩
    · intro _
      refine ⟨?_, rfl⟩
      rw [ntotalOfStore_eq rfl, mkRows_length]
      show _ = (m.encode ((dedupeAux [] (_load_events_texts events)).map (fun p => p.2.1))).length
      rw [encode_length, List.length_map]
  | false =>
    obtain ⟨chunksF, heq, hlen⟩ := rebuild_run_nodedupe events st m hh
    have hnt : ntotalOfStore (⟨chunksF, metaOf m,
        some ⟨m.decl_dim, m.encode ((_load_events_texts events).map (fun p => p.2.1))⟩⟩ : Store)
        = events.length := by
      rw [ntotalOfStore_eq rfl]
      show (m.encode ((_load_events_texts events).map (fun p => p.2.1))).length = _
      rw [encode_length, List.length_map, _load_events_texts, List.length_map]
    refine ⟨_, _, heq, ?_, ?_⟩
    · show decide (distinctHashCount events = events.length) = true ↔ _
      rw [hnt, hlen]
      exact ⟨of_decide_eq_true, decide_eq_true⟩
    · exact fun h => absurd h (by decide)

/-- C8 amended witness: one record, dedupe on. -/
theorem rebuild_soft_reports_consistency_witness :
    Honest m4 ∧
    (∃ s : RebuildSummary, ∃ st' : Store,
      rebuild_events [evB] emptyStore m4 true = Except.ok (s, st') ∧
      (s.ok = true ↔ st'.chunks.length = ntotalOfStore st') ∧
      (true = true → st'.chunks.length = ntotalOfStore st' ∧ s.ok = true)) := by
  refine ⟨rfl, ?_⟩
  exact rebuild_soft_reports_consistency [evB] emptyStore m4 true rfl

/-- C10: confirmed. Canonical text derivation drops a field exactly when
it is missing or empty, so two records equal after mapping empty fields
to missing fields have identical canonical text and hash; with dedupe on,
appending one of them to a consistent store already holding the hash of
the other adds nothing and changes nothing. -/
theorem canonicalization_ignores_empty_fields {ev ev' : Ev} {st : Store}
    {m : STModel} {idx : FaissIndex}
    (hnorm : normEv ev = normEv ev')
    (hids : st.chunks.map Row.id = List.range st.chunks.length)
    (hne : ∀ r ∈ st.chunks, r.hash ≠ (""))
    (hmm : MetaMatches st m) (hh : Honest m)
    (hfile : st.faissFile = some idx) (hd : idx.d = m.decl_dim)
    (hlen : idx.vecs.length = st.chunks.length)
    (hmem : hashOf ev ∈ st.chunks.map Row.hash) :
    _chunk_text_fields ev' = _chunk_text_fields ev ∧
    hashOf ev' = hashOf ev ∧
    append_events [ev'] st m true = Except.ok
      (⟨0, st.chunks.length, st.chunks.length, false⟩, st) := by
  have htext : _chunk_text_fields ev' = _chunk_text_fields ev := by
    rw [← chunk_text_normEv ev', ← hnorm, chunk_text_normEv]
  have hhashes : hashOf ev' = hashOf ev := by
    rw [hashOf, hashOf, htext]
  refine ⟨htext, hhashes, ?_⟩
  refine append_noop hids hne hmm hh hfile hd hlen ?_ ?_
  · simp [_load_events_texts]
  · intro p hp
    have hp2 : p = (_sha1 (_chunk_text_fields ev'), _chunk_text_fields ev', ev') := by
      simpa [_load_events_texts] using hp
    subst hp2
    refine List.mem_filter.mpr ⟨?_, ?_⟩
    · show _sha1 (_chunk_text_fields ev') ∈ st.chunks.map Row.hash
      have hv : _sha1 (_chunk_text_fields ev') = hashOf ev := hhashes
      rw [hv]
      exact hmem
    · simpa using sha1_ne_empty (_chunk_text_fields ev')

/-- C10 witness: evA with the location missing versus set to the empty
string, against the one row store already holding evA. -/
theorem canonicalization_ignores_empty_fields_witness :
    normEv evA = normEv evAempty ∧
    (_chunk_text_fields evAempty = _chunk_text_fields evA ∧
     hashOf evAempty = hashOf evA ∧
     append_events [evAempty] oneStore m4 true = Except.ok
       (⟨0, oneStore.chunks.length, oneStore.chunks.length, false⟩, oneStore)) := by
  refine ⟨by decide, ?_⟩
  exact canonicalization_ignores_empty_fields (by decide) (by decide) (by decide)
    (show MetaMatches oneStore m4 from ⟨rfl, rfl⟩) rfl
    (rfl : oneStore.faissFile = some (⟨4, [⟨("MiniLM"), 4, _chunk_text_fields evA⟩]⟩ : FaissIndex))
    rfl rfl (by decide)
